import Mathlib

/-!
Shallow embedding of `edward2/tensorflow/layers/made.py` (the MADE degree and
mask generator and the masked weight constraint) and, modelled from the spec,
the tracer stack of `edward2/trace.py` (whose tests are in `edward2/trace_test.py`).

Numpy integer arrays become `List Int`; masks (float 0/1 matrices produced by
`tf.cast`) become `List (List ℚ)`; `np.random.shuffle` and `np.random.randint`
become explicit oracle parameters; Python `raise ValueError` becomes
`Except String`.
-/

namespace Made

abbrev Deg := List Int

/-- `np.arange(a, b)` on integers: the list `[a, a+1, ..., b-1]`. -/
def arange (a b : Int) : List Int :=
  (List.range (b - a).toNat).map fun i : Nat => a + (i : Int)

/-- Insert into an ascending-sorted list. -/
def sortInsert (x : Int) : List Int → List Int
  | [] => [x]
  | y :: ys => if x ≤ y then x :: y :: ys else y :: sortInsert x ys

/-- `np.sort` on a 1-D integer array (ascending), as insertion sort. -/
def npSort : List Int → List Int
  | [] => []
  | x :: xs => sortInsert x (npSort xs)

/-- `np.all(xs != ys)` with numpy 1-D broadcasting: equal lengths compare
elementwise; a length-1 operand broadcasts; any other length mismatch raises. -/
def npAllNe (xs ys : List Int) : Except String Bool :=
  if xs.length = ys.length then
    .ok ((xs.zip ys).all fun p => p.1 ≠ p.2)
  else if xs.length = 1 then
    .ok (ys.all fun y => xs.headD 0 ≠ y)
  else if ys.length = 1 then
    .ok (xs.all fun x => x ≠ ys.headD 0)
  else
    .error "operands could not be broadcast together"

/-- `np.min` on a 1-D integer array; raises on an empty array. -/
def npMin : List Int → Except String Int
  | [] => .error "zero-size array to reduction operation minimum"
  | x :: rest => .ok (rest.foldl min x)

/-- The total value of `npMin` on the lists where it succeeds. -/
def listMinI : List Int → Int
  | [] => 0
  | x :: rest => rest.foldl min x

/-- The `input_order` argument of `create_degrees`: either a string or an
explicit order array. -/
inductive InputOrder where
  | str (s : String)
  | arr (a : List Int)

/-- One iteration of the hidden-layer loop of `create_degrees`: given the
previous layer's degrees and the unit count, produce this hidden layer's
degree vector.  `randint low high size` stands for
`np.random.randint(low=low, high=high, size=size)`. -/
def hiddenLayer (randint : Int → Int → Nat → List Int) (input_dim : Nat)
    (hidden_order : String) (prev : Deg) (units : Nat) : Except String Deg :=
  if hidden_order = "random" then
    (npMin prev).bind fun mn =>
      .ok (randint (min mn ((input_dim : Int) - 1)) (input_dim : Int) units)
  else
    .ok ((List.range units).map fun i : Nat =>
      (i : Int) % max 1 ((input_dim : Int) - 1) + min 1 ((input_dim : Int) - 1))

/-- The hidden-layer loop of `create_degrees`: appends one degree vector per
entry of `hidden_dims`, each computed from the previous vector. -/
def hiddenLoop (randint : Int → Int → Nat → List Int) (input_dim : Nat)
    (hidden_order : String) (prev : Deg) : List Nat → Except String (List Deg)
  | [] => .ok []
  | units :: rest =>
    (hiddenLayer randint input_dim hidden_order prev units).bind fun h =>
      (hiddenLoop randint input_dim hidden_order h rest).bind fun hs =>
        .ok (h :: hs)

/-- The validation at the top of `create_degrees`:
`if isinstance(input_order, str) and input_order not in (...)`. -/
def inputOrderCheck : InputOrder → Except String Unit
  | .str s =>
    if ¬(s = "random" ∨ s = "left-to-right" ∨ s = "right-to-left") then
      .error "Input order is not valid."
    else .ok ()
  | .arr _ => .ok ()

/-- The validation `if hidden_order not in ('random', 'left-to-right')`. -/
def hiddenOrderCheck (hidden_order : String) : Except String Unit :=
  if ¬(hidden_order = "random" ∨ hidden_order = "left-to-right") then
    .error "Hidden order is not valid."
  else .ok ()

/-- The input-degree block of `create_degrees`: identity `np.arange(1, D+1)`
for a string order ("right-to-left" flips it, "random" shuffles it), or the
explicit array gated by
`np.all(np.sort(input_order) != np.arange(1, input_dim + 1))`. -/
def inputDegreesOf (shuffle : List Int → List Int) (input_dim : Nat) :
    InputOrder → Except String Deg
  | .str s =>
    let d := arange 1 ((input_dim : Int) + 1)
    if s = "right-to-left" then .ok d.reverse
    else if s = "random" then .ok (shuffle d)
    else .ok d
  | .arr a =>
    (npAllNe (npSort a) (arange 1 ((input_dim : Int) + 1))).bind fun allne =>
      if allne then .error "invalid input order" else .ok a

/-- `create_degrees` from `made.py`.  `shuffle` stands for
`np.random.shuffle`, `randint` for `np.random.randint`.  Mirrors the source:
validate the order arguments, build the input degree vector, then append one
hidden degree vector per hidden layer. -/
def create_degrees (shuffle : List Int → List Int)
    (randint : Int → Int → Nat → List Int) (input_dim : Nat)
    (hidden_dims : List Nat) (input_order : InputOrder)
    (hidden_order : String) : Except String (List Deg) :=
  (inputOrderCheck input_order).bind fun _ =>
    (hiddenOrderCheck hidden_order).bind fun _ =>
      (inputDegreesOf shuffle input_dim input_order).bind fun input_degrees =>
        (hiddenLoop randint input_dim hidden_order input_degrees
          hidden_dims).bind fun hs =>
          .ok (input_degrees :: hs)

/-- The ≤-mask between consecutive degree vectors:
`tf.cast(input_degrees[:, np.newaxis] <= output_degrees, tf.float32)`. -/
def leqMask (src tgt : Deg) : List (List ℚ) :=
  src.map fun a => tgt.map fun b => if a ≤ b then (1 : ℚ) else 0

/-- The strict mask of the output layer:
`tf.cast(degrees[-1][:, np.newaxis] < degrees[0], tf.float32)`. -/
def ltMask (src tgt : Deg) : List (List ℚ) :=
  src.map fun a => tgt.map fun b => if a < b then (1 : ℚ) else 0

/-- `create_masks` from `made.py`: one ≤-mask for each consecutive pair of
degree vectors, then the strict hidden-to-output mask. -/
def create_masks (shuffle : List Int → List Int)
    (randint : Int → Int → Nat → List Int) (input_dim : Nat)
    (hidden_dims : List Nat) (input_order : InputOrder)
    (hidden_order : String) : Except String (List (List (List ℚ))) :=
  (create_degrees shuffle randint input_dim hidden_dims input_order
      hidden_order).map fun degrees =>
    ((degrees.zip degrees.tail).map fun p => leqMask p.1 p.2)
      ++ [ltMask (degrees.getLastD []) (degrees.headD [])]

/-- Elementwise product of two matrices (`mask * x` in tensorflow, equal shapes). -/
def elemMul (m x : List (List ℚ)) : List (List ℚ) :=
  List.zipWith (fun mr xr => List.zipWith (· * ·) mr xr) m x

/-- `make_masked_constraint` from `made.py`: the returned constraint maps `x`
to `mask * tf.identity(x)`. -/
def make_masked_constraint (mask : List (List ℚ)) : List (List ℚ) → List (List ℚ) :=
  fun x => elemMul mask x

/-- Entry `(i, j)` of a matrix, `0` outside the stored rows/columns. -/
def entry (m : List (List ℚ)) (i j : Nat) : ℚ :=
  (m.getD i []).getD j 0

/-- Dot product of two vectors (truncating to the shorter). -/
def dot (xs ys : List ℚ) : ℚ :=
  ((xs.zip ys).map fun p => p.1 * p.2).sum

/-- Column `j` of a matrix. -/
def col (m : List (List ℚ)) (j : Nat) : List ℚ :=
  m.map fun r => r.getD j 0

/-- Matrix product of two row-major matrices. -/
def matProd (a b : List (List ℚ)) : List (List ℚ) :=
  a.map fun row => (List.range (b.headD []).length).map fun j => dot row (col b j)

/-- Product of a list of matrices, left to right (`[]` for the empty list). -/
def prodMasks : List (List (List ℚ)) → List (List ℚ)
  | [] => []
  | m :: ms => ms.foldl matProd m

/-- An explicit order array is exactly a permutation of `1..input_dim`. -/
def validPerm (a : List Int) (input_dim : Nat) : Prop :=
  npSort a = arange 1 ((input_dim : Int) + 1)

instance (a : List Int) (d : Nat) : Decidable (validPerm a d) := by
  unfold validPerm; infer_instance

/-- A 0/1 mask: every stored entry is `0` or `1`. -/
def isBinary (m : List (List ℚ)) : Prop :=
  ∀ r ∈ m, ∀ e ∈ r, e = 0 ∨ e = 1

instance (m : List (List ℚ)) : Decidable (isBinary m) := by
  unfold isBinary; infer_instance

end Made

namespace Trace

/-- Modelled from the spec: the trace module of edward2 is not among the given
source files (only its test `trace_test.py` is).  Tracers form a stack with
lifetime scoped to a `with` block; the process-wide state is the current
stack, reset to the previous value on block exit including on exceptions.  A
stateful computation threads the stack explicitly and returns either a value
or the exception it raised. -/
def StackM (H ε α : Type) := List H → Except ε α × List H

/-- Modelled from the spec: entering a trace scope pushes a handler onto the
stack; the body then runs; exiting (normally or via an error) pops exactly one
entry, restoring the prior stack. -/
def trace_scope {H ε α : Type} (h : H) (body : StackM H ε α) : StackM H ε α :=
  fun s =>
    let r := body (h :: s)
    (r.1, r.2.tail)

/-- Modelled from the spec: querying the current top handler reads the stack's
top (or a no-op identity handler, here `dflt`, if the stack is empty) without
mutation. -/
def get_next_tracer {H : Type} (dflt : H) (s : List H) : H :=
  s.headD dflt

end Trace



namespace Made

lemma except_bind_ok {ε α β : Type} {e : Except ε α} {f : α → Except ε β} {b : β} :
    e.bind f = .ok b ↔ ∃ a, e = .ok a ∧ f a = .ok b := by
  cases e <;> simp [Except.bind]

lemma create_degrees_ok_parts {sh : List Int → List Int}
    {r : Int → Int → Nat → List Int} {D : Nat} {hd : List Nat}
    {io : InputOrder} {ho : String} {ds : List Deg}
    (h : create_degrees sh r D hd io ho = .ok ds) :
    ∃ d0 hs, inputDegreesOf sh D io = .ok d0
      ∧ hiddenLoop r D ho d0 hd = .ok hs ∧ ds = d0 :: hs := by
  unfold create_degrees at h
  rcases except_bind_ok.mp h with ⟨u1, h1, h⟩
  rcases except_bind_ok.mp h with ⟨u2, h2, h⟩
  rcases except_bind_ok.mp h with ⟨d0, h3, h⟩
  rcases except_bind_ok.mp h with ⟨hs, h4, h5⟩
  injection h5 with h5
  exact ⟨d0, hs, h3, h4, h5.symm⟩

lemma hiddenLayer_lr (r : Int → Int → Nat → List Int) (D : Nat) (prev : Deg)
    (u : Nat) :
    hiddenLayer r D "left-to-right" prev u =
      .ok ((List.range u).map fun i : Nat =>
        (i : Int) % max 1 ((D : Int) - 1) + min 1 ((D : Int) - 1)) := by
  unfold hiddenLayer
  rw [if_neg (by decide)]

lemma hiddenLoop_lr (r : Int → Int → Nat → List Int) (D : Nat) (prev : Deg)
    (hd : List Nat) :
    hiddenLoop r D "left-to-right" prev hd =
      .ok (hd.map fun u => (List.range u).map fun i : Nat =>
        (i : Int) % max 1 ((D : Int) - 1) + min 1 ((D : Int) - 1)) := by
  induction hd generalizing prev with
  | nil => rfl
  | cons u rest ih =>
    simp [hiddenLoop, hiddenLayer_lr, ih, Except.bind]

end Made

namespace Made

lemma getD_zipWith_mul (xs ys : List ℚ) (j : Nat) :
    (List.zipWith (· * ·) xs ys).getD j 0 = xs.getD j 0 * ys.getD j 0 := by
  induction xs generalizing ys j with
  | nil => simp
  | cons x xt ih =>
    cases ys with
    | nil => simp
    | cons y yt =>
      cases j with
      | zero => simp
      | succ j => simpa using ih yt j

lemma entry_elemMul (m x : List (List ℚ)) (i j : Nat) :
    entry (elemMul m x) i j = entry m i j * entry x i j := by
  induction m generalizing x i with
  | nil => simp [entry, elemMul]
  | cons mr mt ih =>
    cases x with
    | nil => simp [entry, elemMul]
    | cons xr xt =>
      cases i with
      | zero => simpa [entry, elemMul] using getD_zipWith_mul mr xr j
      | succ i => simpa [entry, elemMul] using ih xt i

lemma zipWith_mul_idem (mr xr : List ℚ) (hbin : ∀ e ∈ mr, e = 0 ∨ e = 1) :
    List.zipWith (· * ·) mr (List.zipWith (· * ·) mr xr) =
      List.zipWith (· * ·) mr xr := by
  induction mr generalizing xr with
  | nil => simp
  | cons e mt ih =>
    cases xr with
    | nil => simp
    | cons x xt =>
      have he : e = 0 ∨ e = 1 := hbin e (by simp)
      have ht : ∀ e' ∈ mt, e' = 0 ∨ e' = 1 := fun e' h' => hbin e' (by simp [h'])
      rcases he with he | he <;>
        simp [he, ih xt ht]

lemma elemMul_idem (mask x : List (List ℚ)) (hbin : isBinary mask) :
    elemMul mask (elemMul mask x) = elemMul mask x := by
  induction mask generalizing x with
  | nil => simp [elemMul]
  | cons mr mt ih =>
    cases x with
    | nil => simp [elemMul]
    | cons xr xt =>
      have hr : ∀ e ∈ mr, e = 0 ∨ e = 1 := hbin mr (by simp)
      have ht : isBinary mt := fun r h => hbin r (by simp [h])
      simpa [elemMul] using ⟨zipWith_mul_idem mr xr hr, ih xt ht⟩

end Made

/-- C1: the code evaluated at the failing input.  `input_order = [1, 1]` is
not a permutation of `1..2`, yet `create_degrees` returns a degree list
instead of raising: the gate `np.all(np.sort(input_order) != np.arange(1,
input_dim + 1))` only fires when every sorted entry differs from its slot, so
`[1, 1]` (whose sorted first entry equals 1) slips through the validation. -/
theorem C1_nonperm_accepted :
    Made.create_degrees id (fun _ _ _ => []) 2 [] (.arr [1, 1]) "left-to-right"
        = .ok [[1, 1]]
      ∧ ¬ Made.validPerm [1, 1] 2 :=
  ⟨rfl, by decide⟩

/-- C2 (counterexample): for `input_dim = 1` with one hidden layer of one
unit and "left-to-right" orders, `create_degrees` produces the hidden degree
vector `[0]`, whose entry is not at least 1: the offset in the code is
`min(1, input_dim - 1) = 0`, not the claimed explicit lower bound 1. -/
theorem C2_counterexample :
    Made.create_degrees id (fun _ _ _ => []) 1 [1] (.str "left-to-right")
        "left-to-right" = .ok [[1], [0]]
      ∧ ¬ ∀ d ∈ ([[1], [0]] : List Made.Deg).tail, ∀ x ∈ d, 1 ≤ x :=
  ⟨rfl, by decide⟩

/-- C2 (amended): for every `input_dim ≥ 2` and every hidden layer size,
`create_degrees` with hidden order "left-to-right" produces hidden degree
vectors cycling through `1..input_dim-1` via modulo over unit indices
(`degree(unit i) = i % (input_dim-1) + 1`), so every hidden degree is at
least 1 (and at most `input_dim - 1`); for `input_dim = 1` the hidden
degrees are instead all 0. -/
theorem C2_hidden_degrees_left_to_right (sh : List Int → List Int)
    (r : Int → Int → Nat → List Int) (D : Nat) (hd : List Nat)
    (io : Made.InputOrder) (ds : List Made.Deg) (hD : 2 ≤ D)
    (h : Made.create_degrees sh r D hd io "left-to-right" = .ok ds) :
    ds.tail = hd.map (fun u => (List.range u).map fun i : Nat =>
        (i : Int) % ((D : Int) - 1) + 1)
      ∧ ∀ d ∈ ds.tail, ∀ x ∈ d, 1 ≤ x ∧ x ≤ (D : Int) - 1 := by
  obtain ⟨d0, hs, _, hloop, hds⟩ := Made.create_degrees_ok_parts h
  have hpos : (0 : Int) < (D : Int) - 1 := by
    have : (2 : Int) ≤ (D : Int) := by exact_mod_cast hD
    omega
  have hmax : max 1 ((D : Int) - 1) = (D : Int) - 1 := max_eq_right (by omega)
  have hmin : min 1 ((D : Int) - 1) = 1 := min_eq_left (by omega)
  rw [Made.hiddenLoop_lr, hmax, hmin] at hloop
  injection hloop with hloop
  subst hds
  refine ⟨by simpa using hloop.symm, ?_⟩
  intro d hd' x hx
  rw [List.tail_cons, ← hloop] at hd'
  obtain ⟨u, _, rfl⟩ := List.mem_map.mp hd'
  obtain ⟨i, _, rfl⟩ := List.mem_map.mp hx
  constructor
  · have := Int.emod_nonneg (i : Int) (by omega : ((D : Int) - 1) ≠ 0)
    omega
  · have := Int.emod_lt_of_pos (i : Int) hpos
    omega

/-- C2 witness: the amended theorem applied at `input_dim = 3`,
`hidden_dims = [4]`. -/
theorem C2_hidden_degrees_left_to_right_witness :
    ([[1, 2, 3], [1, 2, 1, 2]] : List Made.Deg).tail
        = [4].map (fun u => (List.range u).map fun i : Nat =>
            (i : Int) % ((3 : Int) - 1) + 1)
      ∧ ∀ d ∈ ([[1, 2, 3], [1, 2, 1, 2]] : List Made.Deg).tail, ∀ x ∈ d,
          1 ≤ x ∧ x ≤ (3 : Int) - 1 :=
  C2_hidden_degrees_left_to_right id (fun _ _ _ => []) 3 [4]
    (.str "left-to-right") [[1, 2, 3], [1, 2, 1, 2]] (by decide) (by rfl)

/-- C8: for every 0/1 mask, the constraint built by `make_masked_constraint`
zeroes every entry where the mask is zero, and is idempotent, so masked
entries remain exactly zero after every application. -/
theorem C8_masked_constraint_projection (mask x : List (List ℚ))
    (hbin : Made.isBinary mask) :
    (∀ i j, Made.entry mask i j = 0 →
        Made.entry (Made.make_masked_constraint mask x) i j = 0)
      ∧ Made.make_masked_constraint mask (Made.make_masked_constraint mask x)
          = Made.make_masked_constraint mask x := by
  constructor
  · intro i j hz
    rw [Made.make_masked_constraint, Made.entry_elemMul, hz, zero_mul]
  · exact Made.elemMul_idem mask x hbin

/-- C8 witness: the projection theorem applied to a concrete 0/1 mask and
weight matrix. -/
theorem C8_masked_constraint_projection_witness :
    (∀ i j, Made.entry [[1, 0], [0, 1]] i j = 0 →
        Made.entry (Made.make_masked_constraint [[1, 0], [0, 1]]
          [[5, 7], [2, 3]]) i j = 0)
      ∧ Made.make_masked_constraint [[1, 0], [0, 1]]
            (Made.make_masked_constraint [[1, 0], [0, 1]] [[5, 7], [2, 3]])
          = Made.make_masked_constraint [[1, 0], [0, 1]] [[5, 7], [2, 3]] :=
  C8_masked_constraint_projection [[1, 0], [0, 1]] [[5, 7], [2, 3]] (by decide)

/-- C9 (modelled from the spec, the trace module not being among the source
files): if the body of a trace scope ends in an exception while leaving the
stack as it found it, the exception propagates unmodified, exactly one entry
is popped on unwind, and the top handler after the scope equals the top
handler before it. -/
theorem C9_trace_scope_exception {H ε α : Type} (dflt h : H)
    (body : Trace.StackM H ε α) (s : List H) (e : ε)
    (hbody : body (h :: s) = (.error e, h :: s)) :
    Trace.trace_scope h body s = (.error e, s)
      ∧ Trace.get_next_tracer dflt (Trace.trace_scope h body s).2
          = Trace.get_next_tracer dflt s := by
  refine ⟨?_, ?_⟩ <;> simp [Trace.trace_scope, hbody]

/-- C9 witness: a handler body raising error 42 over the stack `[3]` with
handler 7 pushed. -/
theorem C9_trace_scope_exception_witness :
    (fun st : List Nat => ((Except.error 42 : Except Nat Nat), st)) (7 :: [3])
        = (.error 42, 7 :: [3])
      ∧ (Trace.trace_scope 7
            (fun st : List Nat => ((Except.error 42 : Except Nat Nat), st)) [3]
          = (.error 42, [3])
        ∧ Trace.get_next_tracer 0 (Trace.trace_scope 7
            (fun st : List Nat => ((Except.error 42 : Except Nat Nat), st))
              [3]).2
          = Trace.get_next_tracer 0 [3]) :=
  ⟨rfl, C9_trace_scope_exception 0 7 _ [3] 42 rfl⟩

namespace Made

lemma length_leqMask (s t : Deg) : (leqMask s t).length = s.length := by
  simp [leqMask]

lemma length_ltMask (s t : Deg) : (ltMask s t).length = s.length := by
  simp [ltMask]

lemma mem_leqMask_length {s t : Deg} {row : List ℚ} (h : row ∈ leqMask s t) :
    row.length = t.length := by
  obtain ⟨a, _, rfl⟩ := List.mem_map.mp h
  simp

lemma mem_ltMask_length {s t : Deg} {row : List ℚ} (h : row ∈ ltMask s t) :
    row.length = t.length := by
  obtain ⟨a, _, rfl⟩ := List.mem_map.mp h
  simp

lemma entry_leqMask (s t : Deg) (i j : Nat) (hi : i < s.length)
    (hj : j < t.length) :
    entry (leqMask s t) i j = if s.getD i 0 ≤ t.getD j 0 then 1 else 0 := by
  have h1 : i < (leqMask s t).length := by simpa [leqMask] using hi
  rw [entry, List.getD_eq_getElem _ _ h1]
  simp only [leqMask, List.getElem_map]
  have h2 : j < (t.map fun b => if s[i] ≤ b then (1 : ℚ) else 0).length := by
    simpa using hj
  rw [List.getD_eq_getElem _ _ h2]
  simp only [List.getElem_map]
  rw [List.getD_eq_getElem s 0 hi, List.getD_eq_getElem t 0 hj]

lemma entry_ltMask (s t : Deg) (i j : Nat) (hi : i < s.length)
    (hj : j < t.length) :
    entry (ltMask s t) i j = if s.getD i 0 < t.getD j 0 then 1 else 0 := by
  have h1 : i < (ltMask s t).length := by simpa [ltMask] using hi
  rw [entry, List.getD_eq_getElem _ _ h1]
  simp only [ltMask, List.getElem_map]
  have h2 : j < (t.map fun b => if s[i] < b then (1 : ℚ) else 0).length := by
    simpa using hj
  rw [List.getD_eq_getElem _ _ h2]
  simp only [List.getElem_map]
  rw [List.getD_eq_getElem s 0 hi, List.getD_eq_getElem t 0 hj]

lemma create_masks_ok {sh : List Int → List Int}
    {r : Int → Int → Nat → List Int} {D : Nat} {hd : List Nat}
    {io : InputOrder} {ho : String} {ds : List Deg}
    (h : create_degrees sh r D hd io ho = .ok ds) :
    create_masks sh r D hd io ho =
      .ok (((ds.zip ds.tail).map fun p => leqMask p.1 p.2)
        ++ [ltMask (ds.getLastD []) (ds.headD [])]) := by
  unfold create_masks
  rw [h]
  rfl

lemma pairs_getD (ds : List Deg) (l : Nat) (hl : l + 1 < ds.length) :
    ((ds.zip ds.tail).map fun p => leqMask p.1 p.2).getD l []
      = leqMask (ds.getD l []) (ds.getD (l + 1) []) := by
  have hzl : l < (ds.zip ds.tail).length := by
    rw [List.length_zip, List.length_tail]
    omega
  have hml : l < ((ds.zip ds.tail).map fun p => leqMask p.1 p.2).length := by
    simpa using hzl
  rw [List.getD_eq_getElem _ _ hml, List.getElem_map, List.getElem_zip]
  have htl : l < ds.tail.length := by rw [List.length_tail]; omega
  rw [List.getElem_tail ds l htl]
  rw [List.getD_eq_getElem ds [] (by omega : l < ds.length),
    List.getD_eq_getElem ds [] hl]

lemma hiddenLoop_length {r : Int → Int → Nat → List Int} {D : Nat}
    {ho : String} {prev : Deg} {hd : List Nat} {hs : List Deg}
    (h : hiddenLoop r D ho prev hd = .ok hs) : hs.length = hd.length := by
  induction hd generalizing prev hs with
  | nil =>
    injection h with h
    simp [← h]
  | cons u rest ih =>
    unfold hiddenLoop at h
    rcases except_bind_ok.mp h with ⟨v, _, h⟩
    rcases except_bind_ok.mp h with ⟨vs, hloop, h⟩
    injection h with h
    rw [← h]
    simpa using ih hloop

lemma create_degrees_length {sh : List Int → List Int}
    {r : Int → Int → Nat → List Int} {D : Nat} {hd : List Nat}
    {io : InputOrder} {ho : String} {ds : List Deg}
    (h : create_degrees sh r D hd io ho = .ok ds) :
    ds.length = hd.length + 1 := by
  obtain ⟨d0, hs, _, hloop, rfl⟩ := create_degrees_ok_parts h
  simp [hiddenLoop_length hloop]

lemma arange_length (a b : Int) : (arange a b).length = (b - a).toNat := by
  unfold arange
  rw [List.length_map, List.length_range]

lemma input_degrees_length {sh : List Int → List Int} {D : Nat}
    {io : InputOrder} {d0 : Deg} (hsh : ∀ l, (sh l).length = l.length)
    (harr : ∀ a, io = .arr a → a.length = D)
    (h : inputDegreesOf sh D io = .ok d0) : d0.length = D := by
  have har : (arange 1 ((D : Int) + 1)).length = D := by
    rw [arange_length]
    omega
  cases io with
  | str s =>
    simp only [inputDegreesOf] at h
    split at h
    · injection h with h
      rw [← h]
      simpa using har
    · split at h
      · injection h with h
        rw [← h, hsh, har]
      · injection h with h
        rw [← h, har]
  | arr a =>
    simp only [inputDegreesOf] at h
    rcases except_bind_ok.mp h with ⟨b, _, h⟩
    by_cases hb : b = true
    · rw [if_pos hb] at h
      exact absurd h (by simp)
    · rw [if_neg hb] at h
      injection h with h
      rw [← h]
      exact harr a rfl

end Made

/-- C3: for every valid input to `create_masks`, each mask between
consecutive degree vectors has entry `(i, j)` equal to 1 exactly when
`source_degree[i] ≤ target_degree[j]`, and the final mask has entry `(i, j)`
equal to 1 exactly when `last_degree[i] < input_degree[j]` (strict). -/
theorem C3_mask_entries (sh : List Int → List Int)
    (r : Int → Int → Nat → List Int) (D : Nat) (hd : List Nat)
    (io : Made.InputOrder) (ho : String) (ds : List Made.Deg)
    (ms : List (List (List ℚ)))
    (hds : Made.create_degrees sh r D hd io ho = .ok ds)
    (hms : Made.create_masks sh r D hd io ho = .ok ms) :
    (∀ l i j, l + 1 < ds.length → i < (ds.getD l []).length →
        j < (ds.getD (l + 1) []).length →
        Made.entry (ms.getD l []) i j
          = if (ds.getD l []).getD i 0 ≤ (ds.getD (l + 1) []).getD j 0
            then 1 else 0)
      ∧ ∀ i j, i < (ds.getLastD []).length → j < (ds.headD []).length →
          Made.entry (ms.getLastD []) i j
            = if (ds.getLastD []).getD i 0 < (ds.headD []).getD j 0
              then 1 else 0 := by
  have hmask := Made.create_masks_ok hds
  rw [hms] at hmask
  injection hmask with hmask
  subst hmask
  constructor
  · intro l i j hl hi hj
    have hplen : l < ((ds.zip ds.tail).map fun p => Made.leqMask p.1 p.2).length := by
      rw [List.length_map, List.length_zip, List.length_tail]
      omega
    rw [List.getD_append _ _ _ l hplen, Made.pairs_getD ds l hl,
      Made.entry_leqMask _ _ _ _ hi hj]
  · intro i j hi hj
    rw [List.getLastD_concat, Made.entry_ltMask _ _ _ _ hi hj]

/-- C3 witness: the entry rule at `input_dim = 3`, `hidden_dims = [2]`,
left-to-right orders. -/
theorem C3_mask_entries_witness :
    (∀ l i j, l + 1 < ([[1, 2, 3], [1, 2]] : List Made.Deg).length →
        i < (([[1, 2, 3], [1, 2]] : List Made.Deg).getD l []).length →
        j < (([[1, 2, 3], [1, 2]] : List Made.Deg).getD (l + 1) []).length →
        Made.entry (([[[1, 1], [0, 1], [0, 0]], [[0, 1, 1], [0, 0, 1]]]
            : List (List (List ℚ))).getD l []) i j
          = if (([[1, 2, 3], [1, 2]] : List Made.Deg).getD l []).getD i 0
              ≤ (([[1, 2, 3], [1, 2]] : List Made.Deg).getD (l + 1) []).getD j 0
            then 1 else 0)
      ∧ ∀ i j, i < (([[1, 2, 3], [1, 2]] : List Made.Deg).getLastD []).length →
          j < (([[1, 2, 3], [1, 2]] : List Made.Deg).headD []).length →
          Made.entry (([[[1, 1], [0, 1], [0, 0]], [[0, 1, 1], [0, 0, 1]]]
              : List (List (List ℚ))).getLastD []) i j
            = if (([[1, 2, 3], [1, 2]] : List Made.Deg).getLastD []).getD i 0
                < (([[1, 2, 3], [1, 2]] : List Made.Deg).headD []).getD j 0
              then 1 else 0 :=
  C3_mask_entries id (fun _ _ _ => []) 3 [2] (.str "left-to-right")
    "left-to-right" [[1, 2, 3], [1, 2]]
    [[[1, 1], [0, 1], [0, 0]], [[0, 1, 1], [0, 0, 1]]] (by rfl) (by rfl)

/-- C4: with empty `hidden_dims`, `create_masks` returns exactly one mask,
the strict less-than comparison of the input degree vector against itself. -/
theorem C4_empty_hidden_single_mask (sh : List Int → List Int)
    (r : Int → Int → Nat → List Int) (D : Nat) (io : Made.InputOrder)
    (ho : String) (ds : List Made.Deg)
    (hds : Made.create_degrees sh r D [] io ho = .ok ds) :
    ∃ d0, ds = [d0]
      ∧ Made.create_masks sh r D [] io ho = .ok [Made.ltMask d0 d0]
      ∧ ∀ i j, i < d0.length → j < d0.length →
          Made.entry (Made.ltMask d0 d0) i j
            = if d0.getD i 0 < d0.getD j 0 then 1 else 0 := by
  obtain ⟨d0, hs, hin, hloop, rfl⟩ := Made.create_degrees_ok_parts hds
  have hs0 : hs = [] := by
    simp only [Made.hiddenLoop] at hloop
    injection hloop with h
    exact h.symm
  subst hs0
  refine ⟨d0, rfl, ?_, ?_⟩
  · simpa using Made.create_masks_ok hds
  · intro i j hi hj
    exact Made.entry_ltMask d0 d0 i j hi hj

/-- C4 witness: the single strict mask at `input_dim = 3` with no hidden
layers. -/
theorem C4_empty_hidden_single_mask_witness :
    ∃ d0, ([[1, 2, 3]] : List Made.Deg) = [d0]
      ∧ Made.create_masks id (fun _ _ _ => []) 3 [] (.str "left-to-right")
          "left-to-right" = .ok [Made.ltMask d0 d0]
      ∧ ∀ i j, i < d0.length → j < d0.length →
          Made.entry (Made.ltMask d0 d0) i j
            = if d0.getD i 0 < d0.getD j 0 then 1 else 0 :=
  C4_empty_hidden_single_mask id (fun _ _ _ => []) 3 (.str "left-to-right")
    "left-to-right" [[1, 2, 3]] (by rfl)

/-- C5: `create_masks` returns `len(hidden_dims) + 1` masks; each interior
mask has as many rows as its source degree vector and each of its rows is as
long as its target degree vector; the final mask has as many rows as the last
degree vector and rows of length `input_dim`. -/
theorem C5_mask_shapes (sh : List Int → List Int)
    (r : Int → Int → Nat → List Int) (D : Nat) (hd : List Nat)
    (io : Made.InputOrder) (ho : String) (ds : List Made.Deg)
    (ms : List (List (List ℚ)))
    (hsh : ∀ l, (sh l).length = l.length)
    (harr : ∀ a, io = Made.InputOrder.arr a → a.length = D)
    (hds : Made.create_degrees sh r D hd io ho = .ok ds)
    (hms : Made.create_masks sh r D hd io ho = .ok ms) :
    ms.length = hd.length + 1
      ∧ (∀ l, l + 1 < ds.length →
          (ms.getD l []).length = (ds.getD l []).length
          ∧ ∀ row ∈ ms.getD l [], row.length = (ds.getD (l + 1) []).length)
      ∧ (ms.getLastD []).length = (ds.getLastD []).length
      ∧ ∀ row ∈ ms.getLastD [], row.length = D := by
  have hmask := Made.create_masks_ok hds
  rw [hms] at hmask
  injection hmask with hmask
  subst hmask
  have hdlen : ds.length = hd.length + 1 := Made.create_degrees_length hds
  obtain ⟨d0, hs, hin, hloop, hds'⟩ := Made.create_degrees_ok_parts hds
  have hhead : (ds.headD []).length = D := by
    rw [hds']
    simpa using Made.input_degrees_length hsh harr hin
  refine ⟨?_, ?_, ?_, ?_⟩
  · rw [List.length_append, List.length_map, List.length_zip,
      List.length_tail]
    simp [hdlen]
  · intro l hl
    have hplen : l < ((ds.zip ds.tail).map fun p => Made.leqMask p.1 p.2).length := by
      rw [List.length_map, List.length_zip, List.length_tail]
      omega
    rw [List.getD_append _ _ _ l hplen, Made.pairs_getD ds l hl]
    exact ⟨Made.length_leqMask _ _, fun row hr => Made.mem_leqMask_length hr⟩
  · rw [List.getLastD_concat, Made.length_ltMask]
  · intro row hr
    rw [List.getLastD_concat] at hr
    rw [Made.mem_ltMask_length hr, hhead]

/-- C5 witness: the shape invariant at `input_dim = 3`, `hidden_dims = [2]`,
left-to-right orders. -/
theorem C5_mask_shapes_witness :
    ([[[1, 1], [0, 1], [0, 0]], [[0, 1, 1], [0, 0, 1]]]
          : List (List (List ℚ))).length = [2].length + 1
      ∧ (∀ l, l + 1 < ([[1, 2, 3], [1, 2]] : List Made.Deg).length →
          (([[[1, 1], [0, 1], [0, 0]], [[0, 1, 1], [0, 0, 1]]]
              : List (List (List ℚ))).getD l []).length
            = (([[1, 2, 3], [1, 2]] : List Made.Deg).getD l []).length
          ∧ ∀ row ∈ ([[[1, 1], [0, 1], [0, 0]], [[0, 1, 1], [0, 0, 1]]]
              : List (List (List ℚ))).getD l [],
              row.length = (([[1, 2, 3], [1, 2]] : List Made.Deg).getD (l + 1) []).length)
      ∧ (([[[1, 1], [0, 1], [0, 0]], [[0, 1, 1], [0, 0, 1]]]
            : List (List (List ℚ))).getLastD []).length
          = (([[1, 2, 3], [1, 2]] : List Made.Deg).getLastD []).length
      ∧ ∀ row ∈ ([[[1, 1], [0, 1], [0, 0]], [[0, 1, 1], [0, 0, 1]]]
          : List (List (List ℚ))).getLastD [], row.length = 3 :=
  C5_mask_shapes id (fun _ _ _ => []) 3 [2] (.str "left-to-right")
    "left-to-right" [[1, 2, 3], [1, 2]]
    [[[1, 1], [0, 1], [0, 0]], [[0, 1, 1], [0, 0, 1]]]
    (fun _ => rfl) (fun a h => nomatch h) (by rfl) (by rfl)

namespace Made

lemma arange_one_getD (D i : Nat) (h : i < D) :
    (arange 1 ((D : Int) + 1)).getD i 0 = (i : Int) + 1 := by
  have hlen : (arange 1 ((D : Int) + 1)).length = D := by
    rw [arange_length]
    omega
  have hl : i < (arange 1 ((D : Int) + 1)).length := by omega
  rw [List.getD_eq_getElem _ _ hl]
  unfold arange
  rw [List.getElem_map, List.getElem_range]
  omega

lemma arange_one_rev_getD (D i : Nat) (h : i < D) :
    ((arange 1 ((D : Int) + 1)).reverse).getD i 0 = (D : Int) - i := by
  have hlen : (arange 1 ((D : Int) + 1)).length = D := by
    rw [arange_length]
    omega
  have hr : i < (arange 1 ((D : Int) + 1)).reverse.length := by
    rw [List.length_reverse]
    omega
  rw [List.getD_eq_getElem _ _ hr, List.getElem_reverse,
    ← List.getD_eq_getElem _ 0, hlen, arange_one_getD D (D - 1 - i) (by omega)]
  omega

lemma inputDegreesOf_lr (sh : List Int → List Int) (D : Nat) :
    inputDegreesOf sh D (.str "left-to-right")
      = .ok (arange 1 ((D : Int) + 1)) := by
  simp only [inputDegreesOf]
  rw [if_neg (by decide), if_neg (by decide)]

lemma inputDegreesOf_rl (sh : List Int → List Int) (D : Nat) :
    inputDegreesOf sh D (.str "right-to-left")
      = .ok (arange 1 ((D : Int) + 1)).reverse := by
  simp [inputDegreesOf]

lemma inputDegreesOf_validPerm {sh : List Int → List Int} {D : Nat}
    {a : List Int} (hD : 1 ≤ D) (hp : validPerm a D) :
    inputDegreesOf sh D (.arr a) = .ok a := by
  have hlen : (arange 1 ((D : Int) + 1)).length = D := by
    rw [arange_length]
    omega
  obtain ⟨x, xs, hx⟩ : ∃ x xs, arange 1 ((D : Int) + 1) = x :: xs := by
    cases h : arange 1 ((D : Int) + 1) with
    | nil =>
      rw [h] at hlen
      simp at hlen
      omega
    | cons x xs => exact ⟨x, xs, rfl⟩
  have hne : npAllNe (x :: xs) (x :: xs) = .ok false := by
    unfold npAllNe
    rw [if_pos rfl]
    simp [List.all_cons]
  simp only [inputDegreesOf]
  rw [validPerm] at hp
  rw [hp, hx, hne]
  rfl

end Made

/-- C6 (counterexample): at `input_dim = 0` the empty array is the valid
(empty) permutation of `1..0`, yet `create_degrees` rejects it instead of
returning it verbatim: `np.all` of the empty elementwise comparison is
vacuously true, so the gate fires. -/
theorem C6_counterexample :
    Made.validPerm [] 0
      ∧ Made.create_degrees id (fun _ _ _ => []) 0 [] (.arr [])
          "left-to-right" = .error "invalid input order" :=
  ⟨by decide, rfl⟩

/-- C6 (amended): for every `input_dim = D`, `create_degrees` returns as its
first vector the identity permutation `1..D` for "left-to-right" input order
and the exact reverse `D..1` for "right-to-left"; for an explicit valid
permutation of `1..D` it returns the array verbatim provided `D ≥ 1` (at
`D = 0` the empty explicit order is rejected with an invalid-argument
error). -/
theorem C6_input_degree_vector (sh : List Int → List Int)
    (r : Int → Int → Nat → List Int) (D : Nat) (hd : List Nat) (ho : String)
    (hD : 1 ≤ D) :
    (∀ ds, Made.create_degrees sh r D hd (.str "left-to-right") ho = .ok ds →
        ds.headD [] = Made.arange 1 ((D : Int) + 1)
        ∧ ∀ i, i < D → (ds.headD []).getD i 0 = (i : Int) + 1)
      ∧ (∀ ds, Made.create_degrees sh r D hd (.str "right-to-left") ho = .ok ds →
          ds.headD [] = (Made.arange 1 ((D : Int) + 1)).reverse
          ∧ ∀ i, i < D → (ds.headD []).getD i 0 = (D : Int) - i)
      ∧ ∀ a ds, Made.validPerm a D →
          Made.create_degrees sh r D hd (.arr a) ho = .ok ds →
          ds.headD [] = a := by
  refine ⟨?_, ?_, ?_⟩
  · intro ds h
    obtain ⟨d0, hs, hin, _, rfl⟩ := Made.create_degrees_ok_parts h
    rw [Made.inputDegreesOf_lr] at hin
    injection hin with hin
    subst hin
    exact ⟨rfl, fun i hi => Made.arange_one_getD D i hi⟩
  · intro ds h
    obtain ⟨d0, hs, hin, _, rfl⟩ := Made.create_degrees_ok_parts h
    rw [Made.inputDegreesOf_rl] at hin
    injection hin with hin
    subst hin
    exact ⟨rfl, fun i hi => Made.arange_one_rev_getD D i hi⟩
  · intro a ds hp h
    obtain ⟨d0, hs, hin, _, rfl⟩ := Made.create_degrees_ok_parts h
    rw [Made.inputDegreesOf_validPerm hD hp] at hin
    injection hin with hin
    subst hin
    rfl

/-- C6 witness: the three input orders at `input_dim = 3` (explicit
permutation `[2, 1, 3]`). -/
theorem C6_input_degree_vector_witness :
    ((∀ ds, Made.create_degrees id (fun _ _ _ => []) 3 [] (.str "left-to-right")
        "left-to-right" = .ok ds →
        ds.headD [] = Made.arange 1 ((3 : Int) + 1)
        ∧ ∀ i, i < 3 → (ds.headD []).getD i 0 = (i : Int) + 1)
      ∧ (∀ ds, Made.create_degrees id (fun _ _ _ => []) 3 []
          (.str "right-to-left") "left-to-right" = .ok ds →
          ds.headD [] = (Made.arange 1 ((3 : Int) + 1)).reverse
          ∧ ∀ i, i < 3 → (ds.headD []).getD i 0 = (3 : Int) - i)
      ∧ ∀ a ds, Made.validPerm a 3 →
          Made.create_degrees id (fun _ _ _ => []) 3 [] (.arr a)
            "left-to-right" = .ok ds →
          ds.headD [] = a)
      ∧ Made.create_degrees id (fun _ _ _ => []) 3 [] (.arr [2, 1, 3])
          "left-to-right" = .ok [[2, 1, 3]] :=
  ⟨C6_input_degree_vector id (fun _ _ _ => []) 3 [] "left-to-right"
    (by decide), rfl⟩

namespace Made

lemma npMin_ok {prev : Deg} {mn : Int} (h : npMin prev = .ok mn) :
    mn = listMinI prev := by
  cases prev with
  | nil => exact absurd h (by simp [npMin])
  | cons x rest =>
    injection h with h
    rw [← h]
    rfl

lemma hiddenLayer_random_ok {r : Int → Int → Nat → List Int} {D : Nat}
    {prev h1 : Deg} {u : Nat}
    (h : hiddenLayer r D "random" prev u = .ok h1) :
    ∃ mn, npMin prev = .ok mn
      ∧ h1 = r (min mn ((D : Int) - 1)) (D : Int) u := by
  unfold hiddenLayer at h
  rw [if_pos rfl] at h
  rcases except_bind_ok.mp h with ⟨mn, hmn, h⟩
  injection h with h
  exact ⟨mn, hmn, h.symm⟩

lemma hiddenLoop_random_bounds {r : Int → Int → Nat → List Int} {D : Nat}
    (hrand : ∀ low high n, ∀ x ∈ r low high n, low ≤ x ∧ x < high) :
    ∀ {hd : List Nat} {prev : Deg} {hs : List Deg},
      hiddenLoop r D "random" prev hd = .ok hs →
      ∀ p ∈ (prev :: hs).zip hs, ∀ x ∈ p.2,
        min (listMinI p.1) ((D : Int) - 1) ≤ x ∧ x ≤ (D : Int) - 1 := by
  intro hd
  induction hd with
  | nil =>
    intro prev hs h
    injection h with h
    subst h
    simp
  | cons u rest ih =>
    intro prev hs h
    unfold hiddenLoop at h
    rcases except_bind_ok.mp h with ⟨h1, hlay, h⟩
    rcases except_bind_ok.mp h with ⟨hs', hloop, h⟩
    injection h with h
    subst h
    obtain ⟨mn, hmn, hh1⟩ := hiddenLayer_random_ok hlay
    intro p hp x hx
    rw [List.zip_cons_cons] at hp
    rcases List.mem_cons.mp hp with hp | hp
    · subst hp
      have hb := hrand (min mn ((D : Int) - 1)) (D : Int) u x (hh1 ▸ hx)
      rw [npMin_ok hmn] at hb
      exact ⟨hb.1, by omega⟩
    · exact ih hloop p hp x hx

end Made

/-- C7: with hidden order "random", every entry of every hidden degree vector
lies in the closed interval
`[min(minimum degree of the previous layer, input_dim - 1), input_dim - 1]`,
assuming `randint low high n` yields values in `[low, high)` as
`np.random.randint` does. -/
theorem C7_random_hidden_degree_bounds (sh : List Int → List Int)
    (r : Int → Int → Nat → List Int) (D : Nat) (hd : List Nat)
    (io : Made.InputOrder) (ds : List Made.Deg)
    (hrand : ∀ low high n, ∀ x ∈ r low high n, low ≤ x ∧ x < high)
    (hds : Made.create_degrees sh r D hd io "random" = .ok ds) :
    ∀ p ∈ ds.zip ds.tail, ∀ x ∈ p.2,
      min (Made.listMinI p.1) ((D : Int) - 1) ≤ x ∧ x ≤ (D : Int) - 1 := by
  obtain ⟨d0, hs, _, hloop, rfl⟩ := Made.create_degrees_ok_parts hds
  rw [List.tail_cons]
  exact Made.hiddenLoop_random_bounds hrand hloop

/-- C7 witness: `input_dim = 3`, one hidden layer of two units, with a
`randint` oracle that returns `low` everywhere in range; the bound checked at
the pair (input layer, hidden layer) and the hidden entry 1. -/
theorem C7_random_hidden_degree_bounds_witness :
    min (Made.listMinI [1, 2, 3]) ((3 : Int) - 1) ≤ 1
      ∧ (1 : Int) ≤ (3 : Int) - 1 :=
  C7_random_hidden_degree_bounds id
    (fun low high n => if low < high then List.replicate n low else [])
    3 [2] (.str "left-to-right") [[1, 2, 3], [1, 1]]
    (fun low high n x hx => by
      dsimp only at hx
      by_cases hlt : low < high
      · rw [if_pos hlt] at hx
        rw [List.eq_of_mem_replicate hx]
        exact ⟨le_refl low, hlt⟩
      · rw [if_neg hlt] at hx
        exact absurd hx (List.not_mem_nil x))
    (by rfl) ([1, 2, 3], [1, 1]) (by decide) 1 (by decide)

namespace Made

lemma except_map_ok {ε α β : Type} {e : Except ε α} {f : α → β} {b : β} :
    e.map f = .ok b ↔ ∃ a, e = .ok a ∧ f a = b := by
  cases e <;> simp [Except.map]

lemma col_getD (b : List (List ℚ)) (j t : Nat) :
    (col b j).getD t 0 = entry b t j := by
  by_cases ht : t < b.length
  · have hc : t < (col b j).length := by simpa [col] using ht
    rw [List.getD_eq_getElem _ _ hc]
    simp only [col, List.getElem_map]
    rw [entry, List.getD_eq_getElem b [] ht]
  · rw [List.getD_eq_default _ _ (by simpa [col] using Nat.le_of_not_lt ht),
      entry, List.getD_eq_default b [] (Nat.le_of_not_lt ht)]
    rfl

lemma dot_ne_exists {xs ys : List ℚ} (h : dot xs ys ≠ 0) :
    ∃ k, xs.getD k 0 ≠ 0 ∧ ys.getD k 0 ≠ 0 := by
  by_contra hc
  push_neg at hc
  apply h
  apply List.sum_eq_zero
  intro v hv
  obtain ⟨p, hp, rfl⟩ := List.mem_map.mp hv
  obtain ⟨k, hk, hpk⟩ := List.mem_iff_getElem.mp hp
  have hkx : k < xs.length := by
    rw [List.length_zip] at hk
    omega
  have hky : k < ys.length := by
    rw [List.length_zip] at hk
    omega
  rw [List.getElem_zip] at hpk
  rcases imp_iff_not_or.mp (hc k) with h0 | h0
  · have : xs[k] = 0 := by
      rwa [List.getD_eq_getElem xs 0 hkx, not_not] at h0
    rw [← hpk, this, zero_mul]
  · have : ys[k] = 0 := by
      rwa [List.getD_eq_getElem ys 0 hky] at h0
    rw [← hpk, this, mul_zero]

lemma matProd_entry_ne {a b : List (List ℚ)} {i j : Nat}
    (h : entry (matProd a b) i j ≠ 0) :
    ∃ t, entry a i t ≠ 0 ∧ entry b t j ≠ 0 := by
  have hia : i < a.length := by
    by_contra hi
    apply h
    rw [entry, List.getD_eq_default (matProd a b) [] (by
      simpa [matProd] using Nat.le_of_not_lt hi)]
    rfl
  have hma : i < (matProd a b).length := by simpa [matProd] using hia
  have hrow : entry (matProd a b) i j
      = ((List.range (b.headD []).length).map fun j' =>
          dot a[i] (col b j')).getD j 0 := by
    rw [entry, List.getD_eq_getElem _ _ hma]
    simp only [matProd, List.getElem_map]
  have hjb : j < (b.headD []).length := by
    by_contra hj
    apply h
    rw [hrow, List.getD_eq_default _ _ (by
      simpa using Nat.le_of_not_lt hj)]
  have hdot : dot a[i] (col b j) ≠ 0 := by
    intro hz
    apply h
    have hjr : j < ((List.range (b.headD []).length).map fun j' =>
        dot a[i] (col b j')).length := by simpa using hjb
    rw [hrow, List.getD_eq_getElem _ _ hjr]
    simp only [List.getElem_map, List.getElem_range]
    exact hz
  obtain ⟨k, hk1, hk2⟩ := dot_ne_exists hdot
  refine ⟨k, ?_, ?_⟩
  · rw [entry, List.getD_eq_getElem a [] hia]
    exact hk1
  · rw [← col_getD]
    exact hk2

lemma entry_leqMask_ne {s t : Deg} {i j : Nat}
    (h : entry (leqMask s t) i j ≠ 0) :
    i < s.length ∧ j < t.length ∧ s.getD i 0 ≤ t.getD j 0 := by
  have hi : i < s.length := by
    by_contra hi
    apply h
    rw [entry, List.getD_eq_default (leqMask s t) [] (by
      simpa [leqMask] using Nat.le_of_not_lt hi)]
    rfl
  have hli : i < (leqMask s t).length := by simpa [leqMask] using hi
  have hj : j < t.length := by
    by_contra hj
    apply h
    rw [entry, List.getD_eq_getElem _ _ hli]
    simp only [leqMask, List.getElem_map]
    rw [List.getD_eq_default _ _ (by simpa using Nat.le_of_not_lt hj)]
  refine ⟨hi, hj, ?_⟩
  by_contra hle
  apply h
  rw [entry_leqMask s t i j hi hj, if_neg hle]

lemma entry_ltMask_ne {s t : Deg} {i j : Nat}
    (h : entry (ltMask s t) i j ≠ 0) :
    i < s.length ∧ j < t.length ∧ s.getD i 0 < t.getD j 0 := by
  have hi : i < s.length := by
    by_contra hi
    apply h
    rw [entry, List.getD_eq_default (ltMask s t) [] (by
      simpa [ltMask] using Nat.le_of_not_lt hi)]
    rfl
  have hli : i < (ltMask s t).length := by simpa [ltMask] using hi
  have hj : j < t.length := by
    by_contra hj
    apply h
    rw [entry, List.getD_eq_getElem _ _ hli]
    simp only [ltMask, List.getElem_map]
    rw [List.getD_eq_default _ _ (by simpa using Nat.le_of_not_lt hj)]
  refine ⟨hi, hj, ?_⟩
  by_contra hle
  apply h
  rw [entry_ltMask s t i j hi hj, if_neg hle]

lemma reach_foldl (d0 : Deg) :
    ∀ (rest : List Deg) (prev : Deg) (acc : List (List ℚ)),
      (∀ i t, entry acc i t ≠ 0 →
        i < d0.length ∧ t < prev.length ∧ d0.getD i 0 ≤ prev.getD t 0) →
      ∀ i t, entry (List.foldl matProd acc
          (((prev :: rest).zip rest).map fun p => leqMask p.1 p.2)) i t ≠ 0 →
        i < d0.length ∧ t < (rest.getLastD prev).length
          ∧ d0.getD i 0 ≤ (rest.getLastD prev).getD t 0 := by
  intro rest
  induction rest with
  | nil =>
    intro prev acc hacc i t h
    simpa using hacc i t (by simpa using h)
  | cons d rest' ih =>
    intro prev acc hacc i t h
    rw [List.zip_cons_cons, List.map_cons, List.foldl_cons] at h
    have hacc' : ∀ i' t', entry (matProd acc (leqMask prev d)) i' t' ≠ 0 →
        i' < d0.length ∧ t' < d.length ∧ d0.getD i' 0 ≤ d.getD t' 0 := by
      intro i' t' h'
      obtain ⟨s', h1, h2⟩ := matProd_entry_ne h'
      obtain ⟨hi', hs', hle⟩ := hacc i' s' h1
      obtain ⟨_, ht', hle2⟩ := entry_leqMask_ne h2
      exact ⟨hi', ht', le_trans hle hle2⟩
    have hres := ih d (matProd acc (leqMask prev d)) hacc' i t h
    rw [List.getLastD_cons]
    exact hres

end Made

/-- C10: for a left-to-right MADE with `input_dim ≥ 2`, the matrix product of
all masks returned by `create_masks` (the composed input-to-output
connectivity) has a nonzero entry `(i, j)` only if input degree `i + 1` is
strictly below input degree `j + 1`, i.e. only if `i < j` (with `j` within
the `input_dim` output columns); in particular the row of the input with the
largest degree, index `input_dim - 1`, is identically zero: no output unit
has any path from that input. -/
theorem C10_composed_connectivity (sh : List Int → List Int)
    (r : Int → Int → Nat → List Int) (D : Nat) (hd : List Nat)
    (ms : List (List (List ℚ))) (hD : 2 ≤ D)
    (hms : Made.create_masks sh r D hd (.str "left-to-right") "left-to-right"
      = .ok ms) :
    (∀ i j, Made.entry (Made.prodMasks ms) i j ≠ 0 → i < j ∧ j < D)
      ∧ ∀ j, Made.entry (Made.prodMasks ms) (D - 1) j = 0 := by
  unfold Made.create_masks at hms
  rcases Made.except_map_ok.mp hms with ⟨ds, hds, hform⟩
  obtain ⟨d0, hs, hin, hloop, rfl⟩ := Made.create_degrees_ok_parts hds
  rw [Made.inputDegreesOf_lr] at hin
  injection hin with hin
  have hd0len : d0.length = D := by
    rw [← hin, Made.arange_length]
    omega
  have hgd : ∀ k, k < D → d0.getD k 0 = (k : Int) + 1 := fun k hk => by
    rw [← hin]
    exact Made.arange_one_getD D k hk
  rw [← hform]
  have main : ∀ i j,
      Made.entry (Made.prodMasks
        ((((d0 :: hs).zip (d0 :: hs).tail).map fun p => Made.leqMask p.1 p.2)
          ++ [Made.ltMask ((d0 :: hs).getLastD []) ((d0 :: hs).headD [])]))
        i j ≠ 0 → i < j ∧ j < D := by
    cases hs with
    | nil =>
      simp only [List.tail_cons, List.zip_nil_right, List.map_nil,
        List.nil_append, List.getLastD_cons, List.getLastD_nil,
        List.headD_cons, Made.prodMasks, List.foldl_nil]
      intro i j h
      obtain ⟨hi, hj, hlt⟩ := Made.entry_ltMask_ne h
      rw [hd0len] at hi hj
      rw [hgd i hi, hgd j hj] at hlt
      omega
    | cons h1 hs' =>
      simp only [List.tail_cons, List.zip_cons_cons, List.map_cons,
        List.cons_append, List.getLastD_cons, List.headD_cons,
        Made.prodMasks, List.foldl_cons, List.foldl_append, List.foldl_nil]
      intro i j h
      obtain ⟨t, hQ, hF⟩ := Made.matProd_entry_ne h
      have hacc : ∀ i' t', Made.entry (Made.leqMask d0 h1) i' t' ≠ 0 →
          i' < d0.length ∧ t' < h1.length
            ∧ d0.getD i' 0 ≤ h1.getD t' 0 :=
        fun i' t' h' => Made.entry_leqMask_ne h'
      obtain ⟨hi, ht, hle⟩ :=
        Made.reach_foldl d0 hs' h1 (Made.leqMask d0 h1) hacc i t hQ
      obtain ⟨ht2, hj, hlt⟩ := Made.entry_ltMask_ne hF
      rw [hd0len] at hi hj
      have hij : d0.getD i 0 < d0.getD j 0 := lt_of_le_of_lt hle hlt
      rw [hgd i hi, hgd j hj] at hij
      omega
  refine ⟨main, fun j => ?_⟩
  by_contra h
  obtain ⟨hij, hjD⟩ := main (D - 1) j h
  omega

/-- C10 witness: `input_dim = 2`, one hidden layer of one unit; the composed
product is `[[0, 1], [0, 0]]`. -/
theorem C10_composed_connectivity_witness :
    (∀ i j, Made.entry (Made.prodMasks [[[1], [0]], [[0, 1]]]) i j ≠ 0 →
        i < j ∧ j < 2)
      ∧ ∀ j, Made.entry (Made.prodMasks [[[1], [0]], [[0, 1]]]) (2 - 1) j = 0 :=
  C10_composed_connectivity id (fun _ _ _ => []) 2 [1] [[[1], [0]], [[0, 1]]]
    (by decide) (by rfl)
